import Mathlib

set_option maxRecDepth 4096

/-!
Verification development for the Z-Eval search-engine evaluation tool.

The repository's core logic lives in `src/app/services/evaluationService.ts`
and `src/app/services/apiService.ts`.  This file gives a shallow embedding of
that logic: JavaScript numbers are modelled as `ℚ`, JavaScript objects used as
string-keyed score maps are modelled as association lists, fallible calls are
modelled by `Option`/`Except`, and the two HTTP endpoints are modelled by
oracle functions supplied as parameters.  Wall-clock timestamps and the fixed
inter-call delays are outside the embedding (they do not affect any value
computed here).
-/

/-- A search engine entry (`SearchEngine` in `evaluationService.ts`). -/
structure SearchEngine where
  id : Nat
  code : String
  name : String
  deriving DecidableEq

/-- An evaluation dimension (`Dimension` in `evaluationService.ts`). -/
structure Dimension where
  id : Nat
  name : String
  weight : ℚ
  enabled : Bool
  prompt : Option String
  deriving DecidableEq

/-- The scoring-system tag (`'binary' | 'fivePoint'`). -/
inductive ScoringSystem where
  | binary
  | fivePoint
  deriving DecidableEq

/-- Evaluation configuration (`EvaluationConfig` in `evaluationService.ts`). -/
structure EvaluationConfig where
  apiUrl : String
  modelApiKey : String
  modelKey : String
  websearchUrl : String
  scoringSystem : ScoringSystem

/-- One normalized search-result item (title/url/snippet/rank). -/
structure SRItem where
  title : String
  url : String
  snippet : String
  rank : Nat
  deriving DecidableEq

/-- Normalized web-search response (`WebSearchResponse` in `apiService.ts`). -/
structure WebSearchResponse where
  results : List SRItem
  total_count : Nat
  request_id : String
  deriving DecidableEq

/-- One evaluation record (`EvaluationResult` in `evaluationService.ts`).
The `timestamp` field (wall clock) is omitted from the embedding. -/
structure EvaluationResult where
  engineId : Nat
  engineName : String
  query : String
  round : Nat
  searchResults : List SRItem
  scores : List (String × ℚ)
  weightedScore : ℚ

/-- One progress snapshot (`EvaluationProgress` in `evaluationService.ts`).
The optional `currentDimension` field is never set on the batch path and is
omitted. -/
structure EvaluationProgress where
  currentEngine : String
  currentRound : Nat
  totalRounds : Nat
  progress : Int

/-- Lookup of `scores[name]` on a JavaScript object modelled as an
association list (object keys are unique, so first match suffices). -/
def lookupScore : List (String × ℚ) → String → Option ℚ
  | [], _ => none
  | (k, v) :: rest, key => if k = key then some v else lookupScore rest key

/-- Function `calculateWeightedScore` from `evaluationService.ts` (lines 542-557):
iterate over all dimensions, and for each dimension whose name has an entry
in the scores map add `score * weight` to the running weighted sum and
`weight` to the running total weight; return `weightedSum / totalWeight`
when `totalWeight > 0` and `0` otherwise. -/
def calculateWeightedScore (scores : List (String × ℚ)) (dimensions : List Dimension) : ℚ :=
  let acc := dimensions.foldl
    (fun (acc : ℚ × ℚ) d =>
      match lookupScore scores d.name with
      | some s => (acc.1 + s * d.weight, acc.2 + d.weight)
      | none => acc)
    (0, 0)
  if 0 < acc.2 then acc.1 / acc.2 else 0

/-- Spec-side numerator: sum of `score * weight` over the dimensions whose
name has an entry in the scores map. -/
def wNum (scores : List (String × ℚ)) : List Dimension → ℚ
  | [] => 0
  | d :: ds =>
    (match lookupScore scores d.name with
     | some s => s * d.weight
     | none => 0) + wNum scores ds

/-- Spec-side denominator: sum of the weights of the dimensions whose name
has an entry in the scores map. -/
def wDen (scores : List (String × ℚ)) : List Dimension → ℚ
  | [] => 0
  | d :: ds =>
    (match lookupScore scores d.name with
     | some _ => d.weight
     | none => 0) + wDen scores ds

theorem calculateWeightedScore_foldl (scores : List (String × ℚ)) :
    ∀ (ds : List Dimension) (a b : ℚ),
      ds.foldl
        (fun (acc : ℚ × ℚ) d =>
          match lookupScore scores d.name with
          | some s => (acc.1 + s * d.weight, acc.2 + d.weight)
          | none => acc)
        (a, b) = (a + wNum scores ds, b + wDen scores ds) := by
  intro ds
  induction ds with
  | nil => intro a b; simp [wNum, wDen]
  | cons d rest ih =>
    intro a b
    simp only [List.foldl_cons, wNum, wDen]
    cases h : lookupScore scores d.name with
    | none => simp [h, ih]
    | some s => simp [h, ih a, ih]; constructor <;> ring

theorem calculateWeightedScore_eq (scores : List (String × ℚ)) (ds : List Dimension) :
    calculateWeightedScore scores ds =
      if 0 < wDen scores ds then wNum scores ds / wDen scores ds else 0 := by
  unfold calculateWeightedScore
  rw [calculateWeightedScore_foldl]
  simp

/-- The dimensions of `ds` whose name has an entry in the scores map. -/
def presentDims (scores : List (String × ℚ)) (ds : List Dimension) : List Dimension :=
  ds.filter fun d => (lookupScore scores d.name).isSome

/-- The score recorded for a dimension (0 if absent). -/
def scoreOf (scores : List (String × ℚ)) (d : Dimension) : ℚ :=
  (lookupScore scores d.name).getD 0

theorem wNum_eq_sum (scores : List (String × ℚ)) (ds : List Dimension) :
    wNum scores ds =
      ((presentDims scores ds).map fun d => scoreOf scores d * d.weight).sum := by
  induction ds with
  | nil => simp [wNum, presentDims]
  | cons d rest ih =>
    simp only [wNum, presentDims, List.filter_cons]
    cases h : lookupScore scores d.name with
    | none => simpa [h, presentDims] using ih
    | some s => simp [h, presentDims, scoreOf, ih]

theorem wDen_eq_sum (scores : List (String × ℚ)) (ds : List Dimension) :
    wDen scores ds = ((presentDims scores ds).map fun d => d.weight).sum := by
  induction ds with
  | nil => simp [wDen, presentDims]
  | cons d rest ih =>
    simp only [wDen, presentDims, List.filter_cons]
    cases h : lookupScore scores d.name with
    | none => simpa [h, presentDims] using ih
    | some s => simp [h, presentDims, ih]

theorem wDen_nonneg (scores : List (String × ℚ)) (ds : List Dimension)
    (hw : ∀ d ∈ ds, 0 ≤ d.weight) : 0 ≤ wDen scores ds := by
  induction ds with
  | nil => simp [wDen]
  | cons d rest ih =>
    have hd := hw d (by simp)
    have hrest : ∀ d₀ ∈ rest, 0 ≤ d₀.weight := fun d₀ h₀ => hw d₀ (by simp [h₀])
    cases h : lookupScore scores d.name with
    | none => simpa [wDen, h] using ih hrest
    | some s =>
      simp only [wDen, h]
      have := ih hrest
      linarith

theorem wNum_eq_zero_of_wDen_eq_zero (scores : List (String × ℚ)) (ds : List Dimension)
    (hw : ∀ d ∈ ds, 0 ≤ d.weight) (hz : wDen scores ds = 0) : wNum scores ds = 0 := by
  induction ds with
  | nil => simp [wNum]
  | cons d rest ih =>
    have hd := hw d (by simp)
    have hrest : ∀ d₀ ∈ rest, 0 ≤ d₀.weight := fun d₀ h₀ => hw d₀ (by simp [h₀])
    have hrest_nonneg := wDen_nonneg scores rest hrest
    cases h : lookupScore scores d.name with
    | none =>
      simp only [wDen, h, zero_add] at hz
      simp only [wNum, h]
      simpa using ih hrest hz
    | some s =>
      simp only [wDen, h] at hz
      have hwd : d.weight = 0 := by linarith
      have hrz : wDen scores rest = 0 := by linarith
      simp only [wNum, h, hwd, mul_zero, zero_add]
      exact ih hrest hrz

theorem lookupScore_mem (scores : List (String × ℚ)) (k : String) (v : ℚ)
    (h : lookupScore scores k = some v) : (k, v) ∈ scores := by
  induction scores with
  | nil => simp [lookupScore] at h
  | cons p rest ih =>
    obtain ⟨pk, pv⟩ := p
    by_cases hk : pk = k
    · simp [lookupScore, hk] at h
      simp [hk, h]
    · simp [lookupScore, hk] at h
      simp [ih h]

theorem wNum_nonneg (scores : List (String × ℚ)) (ds : List Dimension)
    (hw : ∀ d ∈ ds, 0 ≤ d.weight) (hs : ∀ p ∈ scores, 0 ≤ p.2) :
    0 ≤ wNum scores ds := by
  induction ds with
  | nil => simp [wNum]
  | cons d rest ih =>
    have hd := hw d (by simp)
    have hrest : ∀ d₀ ∈ rest, 0 ≤ d₀.weight := fun d₀ h₀ => hw d₀ (by simp [h₀])
    cases h : lookupScore scores d.name with
    | none => simpa [wNum, h] using ih hrest
    | some s =>
      have hsv : 0 ≤ s := hs (d.name, s) (lookupScore_mem scores d.name s h)
      simp only [wNum, h]
      exact add_nonneg (mul_nonneg hsv hd) (ih hrest)

theorem wNum_le_wDen_mul (scores : List (String × ℚ)) (ds : List Dimension) (M : ℚ)
    (hw : ∀ d ∈ ds, 0 ≤ d.weight) (hs : ∀ p ∈ scores, p.2 ≤ M) :
    wNum scores ds ≤ M * wDen scores ds := by
  induction ds with
  | nil => simp [wNum, wDen]
  | cons d rest ih =>
    have hd := hw d (by simp)
    have hrest : ∀ d₀ ∈ rest, 0 ≤ d₀.weight := fun d₀ h₀ => hw d₀ (by simp [h₀])
    cases h : lookupScore scores d.name with
    | none =>
      simp only [wNum, wDen, h, zero_add]
      exact ih hrest
    | some s =>
      have hsv : s ≤ M := hs (d.name, s) (lookupScore_mem scores d.name s h)
      simp only [wNum, wDen, h, mul_add]
      exact add_le_add (mul_le_mul_of_nonneg_right hsv hd) (ih hrest)

/-- C3: `calculateWeightedScore` equals the weighted sum over the present
dimensions divided by the sum of their weights (provided all weights of `D`
are nonnegative — see the counterexample below for why some restriction is
forced), and equals `0` when no dimension of `D` has an entry in `S`. -/
theorem calculateWeightedScore_spec :
    (∀ (S : List (String × ℚ)) (D : List Dimension), (∀ d ∈ D, 0 ≤ d.weight) →
      calculateWeightedScore S D =
        ((presentDims S D).map fun d => scoreOf S d * d.weight).sum /
          ((presentDims S D).map fun d => d.weight).sum) ∧
    (∀ (S : List (String × ℚ)) (D : List Dimension),
      (∀ d ∈ D, lookupScore S d.name = none) → calculateWeightedScore S D = 0) := by
  constructor
  · intro S D hw
    rw [calculateWeightedScore_eq, ← wNum_eq_sum, ← wDen_eq_sum]
    by_cases h : 0 < wDen S D
    · simp [h]
    · have hz : wDen S D = 0 := le_antisymm (not_lt.mp h) (wDen_nonneg S D hw)
      simp [hz, wNum_eq_zero_of_wDen_eq_zero S D hw hz]
  · intro S D hnone
    rw [calculateWeightedScore_eq]
    have hz : wDen S D = 0 := by
      induction D with
      | nil => simp [wDen]
      | cons d rest ih =>
        have hd := hnone d (by simp)
        have hrest : ∀ d₀ ∈ rest, lookupScore S d₀.name = none := fun d₀ h₀ =>
          hnone d₀ (List.mem_cons_of_mem _ h₀)
        simp [wDen, hd, ih hrest]
    simp [hz]

/-- C3 counterexample: with a negative weight (allowed by the `Dimension`
type, which the claim quantifies over without restriction), the code
returns `0` while the claimed quotient is `1`: for
`S = [("a", 1)]` and `D = [{name := "a", weight := -1}]` the code's
`totalWeight = -1` fails the `0 < totalWeight` guard, so the function
returns `0`, but `(1 * -1) / (-1) = 1`. -/
theorem calculateWeightedScore_claim_false :
    ¬ (calculateWeightedScore [("a", (1 : ℚ))] [⟨1, "a", -1, true, none⟩] =
        ((presentDims [("a", (1 : ℚ))] [⟨1, "a", -1, true, none⟩]).map
            fun d => scoreOf [("a", (1 : ℚ))] d * d.weight).sum /
          ((presentDims [("a", (1 : ℚ))] [⟨1, "a", -1, true, none⟩]).map
            fun d => d.weight).sum) := by
  have hL : calculateWeightedScore [("a", (1 : ℚ))] [⟨1, "a", -1, true, none⟩] = 0 := by
    rw [calculateWeightedScore_eq]
    norm_num [wDen, lookupScore]
  have hR : ((presentDims [("a", (1 : ℚ))] [⟨1, "a", -1, true, none⟩]).map
        fun d => scoreOf [("a", (1 : ℚ))] d * d.weight).sum /
      ((presentDims [("a", (1 : ℚ))] [⟨1, "a", -1, true, none⟩]).map
        fun d => d.weight).sum = 1 := by
    norm_num [presentDims, scoreOf, lookupScore]
  rw [hL, hR]
  norm_num

/-- C4: if every weight of `D` lies in `[0, 1]` and every value of the
scores map lies in `[0, M]` with `0 ≤ M`, the weighted score lies in
`[0, M]`. -/
theorem calculateWeightedScore_range (S : List (String × ℚ)) (D : List Dimension) (M : ℚ)
    (hM : 0 ≤ M)
    (hw : ∀ d ∈ D, 0 ≤ d.weight ∧ d.weight ≤ 1)
    (hs : ∀ p ∈ S, 0 ≤ p.2 ∧ p.2 ≤ M) :
    0 ≤ calculateWeightedScore S D ∧ calculateWeightedScore S D ≤ M := by
  have hw0 : ∀ d ∈ D, 0 ≤ d.weight := fun d hd => (hw d hd).1
  have hs0 : ∀ p ∈ S, 0 ≤ p.2 := fun p hp => (hs p hp).1
  have hsM : ∀ p ∈ S, p.2 ≤ M := fun p hp => (hs p hp).2
  rw [calculateWeightedScore_eq]
  by_cases h : 0 < wDen S D
  · simp only [h, if_true]
    constructor
    · exact div_nonneg (wNum_nonneg S D hw0 hs0) (le_of_lt h)
    · rw [div_le_iff₀ h]
      have := wNum_le_wDen_mul S D M hw0 hsM
      linarith
  · simp [h, hM]

/-- C4 witness. -/
theorem calculateWeightedScore_range_witness :
    0 ≤ calculateWeightedScore [("a", (3 : ℚ))] [⟨1, "a", 1, true, none⟩] ∧
      calculateWeightedScore [("a", (3 : ℚ))] [⟨1, "a", 1, true, none⟩] ≤ 5 :=
  calculateWeightedScore_range [("a", (3 : ℚ))] [⟨1, "a", 1, true, none⟩] 5
    (by norm_num) (by decide) (by decide)

/-- C5: a dimension `d` of `D` whose name has no entry in the scores map
contributes to neither numerator nor denominator: removing it from `D`
leaves the weighted score unchanged. -/
theorem calculateWeightedScore_erase_absent (S : List (String × ℚ))
    (D₁ D₂ : List Dimension) (d : Dimension)
    (h : lookupScore S d.name = none) :
    calculateWeightedScore S (D₁ ++ d :: D₂) = calculateWeightedScore S (D₁ ++ D₂) := by
  have hnum : ∀ (L : List Dimension), wNum S (L ++ d :: D₂) = wNum S (L ++ D₂) := by
    intro L
    induction L with
    | nil => simp [wNum, h]
    | cons e rest ih => simp [wNum, ih]
  have hden : ∀ (L : List Dimension), wDen S (L ++ d :: D₂) = wDen S (L ++ D₂) := by
    intro L
    induction L with
    | nil => simp [wDen, h]
    | cons e rest ih => simp [wDen, ih]
  rw [calculateWeightedScore_eq, calculateWeightedScore_eq, hnum, hden]

/-- C5 witness. -/
theorem calculateWeightedScore_erase_absent_witness :
    calculateWeightedScore [("a", (3 : ℚ))]
        ([⟨1, "a", 1/2, true, none⟩] ++ ⟨2, "b", 1/4, true, none⟩ :: []) =
      calculateWeightedScore [("a", (3 : ℚ))] ([⟨1, "a", 1/2, true, none⟩] ++ []) :=
  calculateWeightedScore_erase_absent [("a", (3 : ℚ))]
    [⟨1, "a", 1/2, true, none⟩] [] ⟨2, "b", 1/4, true, none⟩ (by decide)


/-! ### Score extraction (`evaluateWithSearchResults`, lines 139-152)

The model reply is scanned with the regex `最终得分[：:](\\s*)(\\d+(?:\\.\\d+)?)`;
if it matches, the captured number is the score.  Otherwise the first bare
number matching `\\d+(?:\\.\\d+)?` anywhere in the text is used; otherwise the
score is `0`.  The scanner below mirrors the regex engine: it tries each
start position from the left, `\\d` is `[0-9]`, `\\s` is the JavaScript
whitespace class, and `\\d+` is greedy with the fractional group optional. -/

/-- The JavaScript regex whitespace class `\\s`. -/
def isJsSpace (c : Char) : Bool :=
  let n := c.toNat
  (0x9 ≤ n && n ≤ 0xD) || n == 0x20 || n == 0xA0 || n == 0x1680 ||
  (0x2000 ≤ n && n ≤ 0x200A) || n == 0x2028 || n == 0x2029 || n == 0x202F ||
  n == 0x205F || n == 0x3000 || n == 0xFEFF

/-- Decimal value of a digit run. -/
def digitsToNat (ds : List Char) : Nat :=
  ds.foldl (fun n c => 10 * n + (c.toNat - '0'.toNat)) 0

/-- Match `\\d+(?:\\.\\d+)?` at the start of `t`; on success return the parsed
value (as `parseFloat` would) and the remaining input. -/
def matchNumber (t : List Char) : Option (ℚ × List Char) :=
  let ds := t.takeWhile Char.isDigit
  if ds.isEmpty then none
  else
    match t.dropWhile Char.isDigit with
    | '.' :: r2 =>
      let fs := r2.takeWhile Char.isDigit
      if fs.isEmpty then some ((digitsToNat ds : ℚ), t.dropWhile Char.isDigit)
      else some ((digitsToNat ds : ℚ) + (digitsToNat fs : ℚ) / (10 : ℚ) ^ fs.length,
                 r2.dropWhile Char.isDigit)
    | rest => some ((digitsToNat ds : ℚ), rest)

/-- First match of `\\d+(?:\\.\\d+)?` anywhere in the text (leftmost start). -/
def findFirstNumber : List Char → Option ℚ
  | [] => none
  | c :: cs => if c.isDigit then (matchNumber (c :: cs)).map Prod.fst else findFirstNumber cs

/-- Match `最终得分[：:]\\s*(\\d+(?:\\.\\d+)?)` at the start of `t` and return the
captured number.  (The `/i` flag of the source regex is irrelevant: the
pattern contains no cased letters.) -/
def labelMatchAt (t : List Char) : Option ℚ :=
  match t with
  | c1 :: c2 :: c3 :: c4 :: c :: rest =>
    if c1 = '最' ∧ c2 = '终' ∧ c3 = '得' ∧ c4 = '分' ∧ (c = '：' ∨ c = ':') then
      (matchNumber (rest.dropWhile isJsSpace)).map Prod.fst
    else none
  | _ => none

/-- Leftmost match of the labeled pattern in the text. -/
def findLabeled : List Char → Option ℚ
  | [] => none
  | c :: cs =>
    match labelMatchAt (c :: cs) with
    | some q => some q
    | none => findLabeled cs

/-- The score-extraction logic of `evaluateWithSearchResults`: the labeled
match wins, then the first bare number, then `0`. -/
def extractScore (t : List Char) : ℚ :=
  match findLabeled t with
  | some q => q
  | none =>
    match findFirstNumber t with
    | some q => q
    | none => 0

/-- Score extraction on a `String` reply. -/
def extractScoreStr (s : String) : ℚ := extractScore s.data

theorem matchNumber_head_digit (t : List Char) (q : ℚ) (r : List Char)
    (h : matchNumber t = some (q, r)) : ∃ c cs, t = c :: cs ∧ c.isDigit = true := by
  unfold matchNumber at h
  by_cases he : (t.takeWhile Char.isDigit).isEmpty
  · simp [he] at h
  · cases t with
    | nil => simp [List.takeWhile] at he
    | cons c cs =>
      refine ⟨c, cs, rfl, ?_⟩
      by_contra hc
      simp only [Bool.not_eq_true] at hc
      simp [List.takeWhile, hc] at he

theorem findFirstNumber_of_matchNumber (t : List Char) (q : ℚ) (r : List Char)
    (h : matchNumber t = some (q, r)) : findFirstNumber t = some q := by
  obtain ⟨c, cs, rfl, hc⟩ := matchNumber_head_digit t q r h
  simp [findFirstNumber, hc, h]

theorem findFirstNumber_append (pre suf : List Char)
    (hpre : ∀ c ∈ pre, c.isDigit = false) :
    findFirstNumber (pre ++ suf) = findFirstNumber suf := by
  induction pre with
  | nil => simp
  | cons c cs ih =>
    have hc := hpre c (by simp)
    have hcs : ∀ c₀ ∈ cs, c₀.isDigit = false := fun c₀ h₀ =>
      hpre c₀ (List.mem_cons_of_mem _ h₀)
    simp [findFirstNumber, hc, ih hcs]

theorem findFirstNumber_none (t : List Char) (h : ∀ c ∈ t, c.isDigit = false) :
    findFirstNumber t = none := by
  induction t with
  | nil => rfl
  | cons c cs ih =>
    have hc := h c (by simp)
    have hcs : ∀ c₀ ∈ cs, c₀.isDigit = false := fun c₀ h₀ =>
      h c₀ (List.mem_cons_of_mem _ h₀)
    simp [findFirstNumber, hc, ih hcs]

theorem labelMatchAt_has_digit (u : List Char) (q : ℚ) (h : labelMatchAt u = some q) :
    ∃ c ∈ u, c.isDigit = true := by
  rcases u with _ | ⟨c1, _ | ⟨c2, _ | ⟨c3, _ | ⟨c4, _ | ⟨c, rest⟩⟩⟩⟩⟩ <;>
    simp only [labelMatchAt] at h
  all_goals try exact Option.noConfusion h
  by_cases hcond : c1 = '最' ∧ c2 = '终' ∧ c3 = '得' ∧ c4 = '分' ∧ (c = '：' ∨ c = ':')
  · rw [if_pos hcond] at h
    rw [Option.map_eq_some'] at h
    obtain ⟨⟨q', r⟩, hmn, _⟩ := h
    obtain ⟨d, ds, hds, hd⟩ := matchNumber_head_digit _ q' r hmn
    have hsub : d ∈ rest.dropWhile isJsSpace := by rw [hds]; simp
    have hmem : d ∈ rest := (List.dropWhile_sublist _).subset hsub
    exact ⟨d, by simp [hmem], hd⟩
  · rw [if_neg hcond] at h
    exact absurd h (by simp)

theorem findLabeled_none_of_no_digit (t : List Char) (h : ∀ c ∈ t, c.isDigit = false) :
    findLabeled t = none := by
  induction t with
  | nil => rfl
  | cons c cs ih =>
    have hcs : ∀ c₀ ∈ cs, c₀.isDigit = false := fun c₀ h₀ =>
      h c₀ (List.mem_cons_of_mem _ h₀)
    have hnone : labelMatchAt (c :: cs) = none := by
      cases hm : labelMatchAt (c :: cs) with
      | none => rfl
      | some q =>
        obtain ⟨d, hd, hdig⟩ := labelMatchAt_has_digit _ q hm
        exact absurd hdig (by simp [h d hd])
    simp [findLabeled, hnone, ih hcs]

theorem findLabeled_of_first (t : List Char) (i : ℕ) (q : ℚ)
    (h : labelMatchAt (t.drop i) = some q)
    (hmin : ∀ j, j < i → labelMatchAt (t.drop j) = none) :
    findLabeled t = some q := by
  induction t generalizing i with
  | nil =>
    simp only [List.drop_nil] at h
    simp [labelMatchAt] at h
  | cons c cs ih =>
    cases i with
    | zero =>
      simp only [List.drop_zero] at h
      simp [findLabeled, h]
    | succ i' =>
      have h0 : labelMatchAt (c :: cs) = none := by
        have := hmin 0 (Nat.succ_pos i')
        simpa using this
      have hmin' : ∀ j, j < i' → labelMatchAt (cs.drop j) = none := by
        intro j hj
        have := hmin (j + 1) (Nat.succ_lt_succ hj)
        simpa using this
      have h' : labelMatchAt (cs.drop i') = some q := by simpa using h
      simp [findLabeled, h0, ih i' h' hmin']

/-- C6: the extracted score is the number captured by the leftmost occurrence
of the labeled pattern `最终得分` + colon (full-width or ASCII) + optional
whitespace + number when that pattern occurs; otherwise the first bare number
in the text; otherwise `0`.  Includes the three concrete examples from the
specification. -/
theorem extractScore_spec :
    (∀ (t : List Char) (i : ℕ) (q : ℚ), labelMatchAt (t.drop i) = some q →
        (∀ j, j < i → labelMatchAt (t.drop j) = none) → extractScore t = q) ∧
    (∀ (pre suf : List Char) (q : ℚ) (r : List Char), (∀ c ∈ pre, c.isDigit = false) →
        findLabeled (pre ++ suf) = none → matchNumber suf = some (q, r) →
        extractScore (pre ++ suf) = q) ∧
    (∀ t : List Char, (∀ c ∈ t, c.isDigit = false) → extractScore t = 0) ∧
    extractScoreStr "最终得分：4.5" = 9/2 ∧
    extractScoreStr "综合来看约3分" = 3 ∧
    extractScoreStr "没有数字" = 0 := by
  refine ⟨?_, ?_, ?_, ?_, ?_, ?_⟩
  · intro t i q h hmin
    simp only [extractScore]
    rw [findLabeled_of_first t i q h hmin]
  · intro pre suf q r hpre hnl hmn
    simp only [extractScore]
    rw [hnl, findFirstNumber_append pre suf hpre, findFirstNumber_of_matchNumber suf q r hmn]
  · intro t h
    simp only [extractScore]
    rw [findLabeled_none_of_no_digit t h, findFirstNumber_none t h]
  · have h : extractScoreStr "最终得分：4.5" =
        ((4 : ℕ) : ℚ) + ((5 : ℕ) : ℚ) / (10 : ℚ) ^ (1 : ℕ) := rfl
    rw [h]
    norm_num
  · decide
  · rfl

/-- C6 witness: the labeled pattern found at position 1 (and absent at
position 0) determines the score. -/
theorem extractScore_spec_witness : extractScoreStr "合最终得分:7" = 7 := by
  refine extractScore_spec.1 ("合最终得分:7".data) 1 7 (by decide) ?_
  intro j hj
  interval_cases j
  decide

/-! ### Web-search response normalization (`callWebSearchApi`, lines 105-120)

After a 2xx response, a raw `{search_result: [...]}` payload is mapped to the
expected shape; a payload without `search_result` is returned as-is. -/

/-- JavaScript `x || y` on an optional string field (the empty string is
falsy, so it also falls through to `y`). -/
def jsOrStr (x : Option String) (y : String) : String :=
  match x with
  | some s => if s.isEmpty then y else s
  | none => y

/-- One item of a raw `search_result` array (all fields may be absent). -/
structure RawSearchItem where
  title : Option String
  url : Option String
  snippet : Option String
  content : Option String

/-- A decoded web-search response body: either a raw payload carrying a
`search_result` array (with optional `request_id`/`id` fields), or a body
already in the expected shape. -/
inductive RawSearchPayload where
  | raw (search_result : List RawSearchItem) (request_id : Option String) (id : Option String)
  | shaped (resp : WebSearchResponse)

/-- The per-item mapping of `callWebSearchApi`: title/url default to `""`,
snippet falls back to the `content` field, rank is the 1-based index. -/
def normalizeItem (item : RawSearchItem) (index : Nat) : SRItem :=
  ⟨jsOrStr item.title "", jsOrStr item.url "",
   jsOrStr item.snippet (jsOrStr item.content ""), index + 1⟩

/-- The `search_result.map((item, index) => ...)` loop starting at index `i`. -/
def normalizeItems : Nat → List RawSearchItem → List SRItem
  | _, [] => []
  | i, item :: rest => normalizeItem item i :: normalizeItems (i + 1) rest

/-- The response handling of `callWebSearchApi` on a decoded body. -/
def processWebSearchData : RawSearchPayload → WebSearchResponse
  | .raw sr rid oid => ⟨normalizeItems 0 sr, sr.length, jsOrStr rid (jsOrStr oid "")⟩
  | .shaped r => r

theorem normalizeItems_length : ∀ (L : List RawSearchItem) (n : Nat),
    (normalizeItems n L).length = L.length := by
  intro L
  induction L with
  | nil => intro n; rfl
  | cons item rest ih => intro n; simp [normalizeItems, ih]

theorem normalizeItems_getElem? : ∀ (L : List RawSearchItem) (n i : Nat),
    (normalizeItems n L)[i]? = (L[i]?).map fun item => normalizeItem item (n + i) := by
  intro L
  induction L with
  | nil => intro n i; simp [normalizeItems]
  | cons item rest ih =>
    intro n i
    cases i with
    | zero => simp [normalizeItems]
    | succ i' =>
      simp only [normalizeItems, List.getElem?_cons_succ]
      rw [ih (n + 1) i']
      congr 1
      funext it
      congr 1
      omega

/-- C7: normalizing a raw `{search_result: [...]}` payload maps the item at
index `i` to title/url (defaulted to `""`), snippet (falling back to the
`content` field), and rank `i + 1`; `total_count` is the array length and
`request_id` falls back from `request_id` to `id` to `""`.  Includes the
concrete example from the specification. -/
theorem processWebSearchData_spec :
    (∀ (sr : List RawSearchItem) (rid oid : Option String) (i : Nat) (item : RawSearchItem),
        sr[i]? = some item →
        (processWebSearchData (.raw sr rid oid)).results[i]? =
          some ⟨jsOrStr item.title "", jsOrStr item.url "",
                jsOrStr item.snippet (jsOrStr item.content ""), i + 1⟩) ∧
    (∀ (sr : List RawSearchItem) (rid oid : Option String),
        (processWebSearchData (.raw sr rid oid)).total_count = sr.length ∧
        (processWebSearchData (.raw sr rid oid)).results.length = sr.length ∧
        (processWebSearchData (.raw sr rid oid)).request_id = jsOrStr rid (jsOrStr oid "")) ∧
    processWebSearchData (.raw [⟨some "A", some "u1", none, some "c1"⟩] (some "r1") none) =
      ⟨[⟨"A", "u1", "c1", 1⟩], 1, "r1"⟩ := by
  refine ⟨?_, ?_, ?_⟩
  · intro sr rid oid i item hi
    simp only [processWebSearchData, normalizeItems_getElem?, hi, Option.map_some']
    simp [normalizeItem]
  · intro sr rid oid
    exact ⟨rfl, normalizeItems_length sr 0, rfl⟩
  · rfl

/-- C7 witness. -/
theorem processWebSearchData_spec_witness :
    (processWebSearchData (.raw [⟨none, some "u", some "", some "c"⟩] none none)).results[0]? =
      some ⟨jsOrStr (some "") "", jsOrStr (some "u") "",
            jsOrStr (some "") (jsOrStr (some "c") ""), 1⟩ := by
  have h := processWebSearchData_spec.1 [⟨none, some "u", some "", some "c"⟩] none none 0
    ⟨none, some "u", some "", some "c"⟩ rfl
  simpa using h

/-! ### Evaluation prompt builder (`buildEvaluationPrompt`, apiService.ts
lines 183-221).  Throws when the result list is empty or invalid (there is
nothing to grade); otherwise assembles the grading prompt string. -/

/-- The score-range text inserted into the prompt. -/
def scoreRangeText : ScoringSystem → String
  | .binary => "0-1分"
  | .fivePoint => "1-5分"

/-- The `searchResults.map((result, index) => ...)` loop of the prompt builder,
starting at index `i`. -/
def resultLines : Nat → List SRItem → List String
  | _, [] => []
  | i, r :: rest =>
    (toString (i + 1) ++ ". 标题: " ++ r.title ++ "\n   链接: " ++ r.url ++
      "\n   摘要: " ++ r.snippet ++ "\n") :: resultLines (i + 1) rest

/-- Function `buildEvaluationPrompt`: fails on an empty or invalid result list,
otherwise returns the assembled prompt. -/
def buildEvaluationPrompt (query : String) (searchResults : List SRItem)
    (dimensionPrompt : String) (scoringSystem : ScoringSystem) : Except String String :=
  if searchResults.isEmpty then
    Except.error "搜索结果为空或无效，无法生成评测提示词"
  else
    Except.ok ("你是一个专业的搜索引擎评测专家。请按照以下要求对搜索结果进行评分：\n\n查询内容：" ++ query ++
      "\n\n搜索结果：\n" ++ String.intercalate "\n" (resultLines 0 searchResults) ++
      "\n\n评测维度：" ++ dimensionPrompt ++
      "\n\n请按照以下结构化格式输出你的评测结果：\n\n## 评测分析\n[请从" ++ dimensionPrompt ++
      "的角度详细评价搜索结果，说明评分理由]\n\n## 得分结果\n评分范围：" ++ scoreRangeText scoringSystem ++
      "\n最终得分：[具体数字分数]\n\n注意：最终得分必须是" ++ scoreRangeText scoringSystem ++
      "范围内的数字，请确保在\"最终得分：\"后面给出明确的数字分数。")

/-- C8: the prompt builder fails exactly on an empty result list, and for
every non-empty result list it returns a prompt string. -/
theorem buildEvaluationPrompt_spec (query : String) (rs : List SRItem)
    (dp : String) (ss : ScoringSystem) :
    ((∃ e, buildEvaluationPrompt query rs dp ss = Except.error e) ↔ rs = []) ∧
    (rs ≠ [] → ∃ s, buildEvaluationPrompt query rs dp ss = Except.ok s) := by
  cases rs with
  | nil => simp [buildEvaluationPrompt, List.isEmpty]
  | cons r rest => simp [buildEvaluationPrompt, List.isEmpty]

/-- C8 witness. -/
theorem buildEvaluationPrompt_spec_witness :
    ∃ s, buildEvaluationPrompt "q" [⟨"t", "u", "s", 1⟩] "d" ScoringSystem.binary =
      Except.ok s :=
  (buildEvaluationPrompt_spec "q" [⟨"t", "u", "s", 1⟩] "d" ScoringSystem.binary).2
    (List.cons_ne_nil _ _)

/-! ### Per-round evaluation (`evaluateWithSearchResults`, lines 91-180)

For each enabled dimension the code builds the grading prompt, calls the
scoring endpoint and extracts a numeric score; the whole per-dimension body
sits in a `try`/`catch` that logs and assigns a score of `0` on any failure
(including a failed prompt build on an empty result list).  The scoring call
is modelled by an oracle `api : Dimension → Option String` returning the
reply content, `none` meaning the call threw. -/

/-- JavaScript object assignment `scores[k] = v` on an association list:
overwrite the existing entry in place, or append a new one. -/
def scoresSet (m : List (String × ℚ)) (k : String) (v : ℚ) : List (String × ℚ) :=
  if m.any fun p => p.1 == k then
    m.map fun p => if p.1 = k then (k, v) else p
  else m ++ [(k, v)]

/-- The score one dimension receives inside the per-dimension `try`/`catch`:
`0` when the prompt build fails (empty results) or the scoring call throws,
otherwise the score extracted from the reply content. -/
def evalDimension (query : String) (results : List SRItem) (config : EvaluationConfig)
    (api : Dimension → Option String) (d : Dimension) : ℚ :=
  match buildEvaluationPrompt query results
      (jsOrStr d.prompt ("请从" ++ d.name ++ "维度评价搜索结果的质量")) config.scoringSystem with
  | Except.error _ => 0
  | Except.ok _ =>
    match api d with
    | none => 0
    | some content => extractScoreStr content

/-- Function `evaluateWithSearchResults`: score every enabled dimension in order,
then build the result record with the weighted total computed over the FULL
dimension list.  Total by construction — every per-dimension failure is
absorbed as a `0` score, matching the `try`/`catch` in the source. -/
def evaluateWithSearchResults (query : String) (engine : SearchEngine)
    (dimensions : List Dimension) (config : EvaluationConfig) (round : Nat)
    (searchResponse : WebSearchResponse) (api : Dimension → Option String) :
    EvaluationResult :=
  let scores := (dimensions.filter fun d => d.enabled).foldl
    (fun m d => scoresSet m d.name (evalDimension query searchResponse.results config api d)) []
  { engineId := engine.id
    engineName := engine.name
    query := query
    round := round
    searchResults := searchResponse.results
    scores := scores
    weightedScore := calculateWeightedScore scores dimensions }

theorem scoresSet_append (m : List (String × ℚ)) (k : String) (v : ℚ)
    (h : ∀ p ∈ m, p.1 ≠ k) : scoresSet m k v = m ++ [(k, v)] := by
  unfold scoresSet
  have hany : (m.any fun p => p.1 == k) = false := by
    rw [List.any_eq_false]
    intro p hp
    simpa using h p hp
  rw [hany]
  simp

theorem scores_foldl_eq (f : Dimension → ℚ) :
    ∀ (L : List Dimension) (m : List (String × ℚ)),
      (∀ p ∈ m, ∀ d ∈ L, p.1 ≠ d.name) → ((L.map fun d => d.name).Nodup) →
      L.foldl (fun m d => scoresSet m d.name (f d)) m =
        m ++ L.map fun d => (d.name, f d) := by
  intro L
  induction L with
  | nil => intro m _ _; simp
  | cons d rest ih =>
    intro m hdisj hnodup
    have hset : scoresSet m d.name (f d) = m ++ [(d.name, f d)] :=
      scoresSet_append m d.name (f d) fun p hp => hdisj p hp d (by simp)
    have hsplit : (∀ x ∈ rest, ¬x.name = d.name) ∧ ((rest.map fun e => e.name).Nodup) := by
      simpa using hnodup
    have hdisj' : ∀ p ∈ m ++ [(d.name, f d)], ∀ e ∈ rest, p.1 ≠ e.name := by
      intro p hp e he
      rcases List.mem_append.mp hp with hm | hone
      · exact hdisj p hm e (List.mem_cons_of_mem _ he)
      · have hpd : p = (d.name, f d) := by simpa using hone
        subst hpd
        exact fun heq => hsplit.1 e he heq.symm
    simp only [List.foldl_cons, hset]
    rw [ih (m ++ [(d.name, f d)]) hdisj' hsplit.2]
    simp

theorem evaluateWithSearchResults_scores (query : String) (engine : SearchEngine)
    (dimensions : List Dimension) (config : EvaluationConfig) (round : Nat)
    (searchResponse : WebSearchResponse) (api : Dimension → Option String)
    (hnodup : (((dimensions.filter fun d => d.enabled).map fun d => d.name).Nodup)) :
    (evaluateWithSearchResults query engine dimensions config round searchResponse api).scores =
      (dimensions.filter fun d => d.enabled).map fun d =>
        (d.name, evalDimension query searchResponse.results config api d) := by
  unfold evaluateWithSearchResults
  simp only []
  rw [scores_foldl_eq _ _ [] (by simp) hnodup]
  simp

theorem lookupScore_map_of_mem (f : Dimension → ℚ) :
    ∀ (L : List Dimension) (d : Dimension), d ∈ L →
      ((L.map fun d => d.name).Nodup) →
      lookupScore (L.map fun d => (d.name, f d)) d.name = some (f d) := by
  intro L
  induction L with
  | nil => intro d hd; simp at hd
  | cons e rest ih =>
    intro d hd hnodup
    have hsplit : (∀ x ∈ rest, ¬x.name = e.name) ∧ ((rest.map fun d => d.name).Nodup) := by
      simpa using hnodup
    by_cases he : e.name = d.name
    · have hde : d = e := by
        rcases List.mem_cons.mp hd with h | h
        · exact h
        · exact absurd he.symm (hsplit.1 d h)
      subst hde
      simp [lookupScore, he]
    · have hdr : d ∈ rest := by
        rcases List.mem_cons.mp hd with h | h
        · exact absurd (congrArg Dimension.name h.symm) he
        · exact h
      simp [lookupScore, he, ih d hdr hsplit.2]

theorem lookupScore_map_of_not_mem (f : Dimension → ℚ) (L : List Dimension) (k : String)
    (hk : k ∉ L.map fun d => d.name) :
    lookupScore (L.map fun d => (d.name, f d)) k = none := by
  induction L with
  | nil => rfl
  | cons e rest ih =>
    have h1 : e.name ≠ k := fun h => hk (by simp [h])
    have h2 : k ∉ rest.map fun d => d.name := fun h => hk (by simp [h])
    simp [lookupScore, h1, ih h2]

theorem evalDimension_of_throw (query : String) (results : List SRItem)
    (config : EvaluationConfig) (api : Dimension → Option String) (d : Dimension)
    (h : api d = none) : evalDimension query results config api d = 0 := by
  unfold evalDimension
  cases buildEvaluationPrompt query results
      (jsOrStr d.prompt ("请从" ++ d.name ++ "维度评价搜索结果的质量")) config.scoringSystem with
  | error e => rfl
  | ok s => rw [h]

theorem evalDimension_of_ok (query : String) (results : List SRItem)
    (config : EvaluationConfig) (api : Dimension → Option String) (d : Dimension)
    (c : String) (hc : api d = some c) (hres : results ≠ []) :
    evalDimension query results config api d = extractScoreStr c := by
  unfold evalDimension
  obtain ⟨s, hs⟩ := (buildEvaluationPrompt_spec query results
    (jsOrStr d.prompt ("请从" ++ d.name ++ "维度评价搜索结果的质量")) config.scoringSystem).2 hres
  rw [hs, hc]

/-- C9: each enabled dimension's score in the produced `EvaluationResult`
depends only on that dimension's own scoring-call outcome: a throwing call
yields an entry of `0` for that dimension while every other enabled
dimension with a successful call still receives its extracted score — the
round always produces a result (the modelled function is total). -/
theorem evaluateWithSearchResults_independent (query : String) (engine : SearchEngine)
    (dimensions : List Dimension) (config : EvaluationConfig) (round : Nat)
    (searchResponse : WebSearchResponse) (api : Dimension → Option String)
    (hnodup : (((dimensions.filter fun d => d.enabled).map fun d => d.name).Nodup)) :
    ∀ d ∈ dimensions.filter fun d => d.enabled,
      (api d = none →
        lookupScore (evaluateWithSearchResults query engine dimensions config round
            searchResponse api).scores d.name = some 0) ∧
      (∀ c, api d = some c → searchResponse.results ≠ [] →
        lookupScore (evaluateWithSearchResults query engine dimensions config round
            searchResponse api).scores d.name = some (extractScoreStr c)) := by
  intro d hd
  rw [evaluateWithSearchResults_scores query engine dimensions config round
        searchResponse api hnodup]
  constructor
  · intro hnone
    rw [lookupScore_map_of_mem _ _ d hd hnodup,
      evalDimension_of_throw query searchResponse.results config api d hnone]
  · intro c hc hres
    rw [lookupScore_map_of_mem _ _ d hd hnodup,
      evalDimension_of_ok query searchResponse.results config api d c hc hres]

/-- C9 witness: two enabled dimensions; the first one's call throws, the
second succeeds with reply text scoring 3. -/
theorem evaluateWithSearchResults_independent_witness :
    lookupScore (evaluateWithSearchResults "q" ⟨1, "e", "E"⟩
        [⟨1, "a", 1, true, none⟩, ⟨2, "b", 1, true, none⟩] ⟨"", "", "", "", .binary⟩ 1
        ⟨[⟨"t", "u", "s", 1⟩], 1, "r"⟩
        (fun d => if d.name = "a" then none else some "最终得分：3")).scores "a" =
      some 0 ∧
    lookupScore (evaluateWithSearchResults "q" ⟨1, "e", "E"⟩
        [⟨1, "a", 1, true, none⟩, ⟨2, "b", 1, true, none⟩] ⟨"", "", "", "", .binary⟩ 1
        ⟨[⟨"t", "u", "s", 1⟩], 1, "r"⟩
        (fun d => if d.name = "a" then none else some "最终得分：3")).scores "b" =
      some (extractScoreStr "最终得分：3") := by
  have h1 := (evaluateWithSearchResults_independent "q" ⟨1, "e", "E"⟩
    [⟨1, "a", 1, true, none⟩, ⟨2, "b", 1, true, none⟩] ⟨"", "", "", "", .binary⟩ 1
    ⟨[⟨"t", "u", "s", 1⟩], 1, "r"⟩
    (fun d => if d.name = "a" then none else some "最终得分：3") (by decide)
    ⟨1, "a", 1, true, none⟩ (by decide)).1 rfl
  have h2 := (evaluateWithSearchResults_independent "q" ⟨1, "e", "E"⟩
    [⟨1, "a", 1, true, none⟩, ⟨2, "b", 1, true, none⟩] ⟨"", "", "", "", .binary⟩ 1
    ⟨[⟨"t", "u", "s", 1⟩], 1, "r"⟩
    (fun d => if d.name = "a" then none else some "最终得分：3") (by decide)
    ⟨2, "b", 1, true, none⟩ (by decide)).2 "最终得分：3" rfl (by decide)
  exact ⟨h1, h2⟩

/-! ### Batch orchestration (`runOptimizedBatchEvaluation`, lines 263-367)

Per query, the search call is issued once per engine (in parallel;
`Promise.all` preserves the order of the engine array).  Engines whose
search failed are skipped.  For each surviving engine and each round
`1..rounds`, a progress callback fires (with the number of already completed
engine-round combinations), then the round is evaluated; a throwing round is
caught, appends no result, and still counts as completed.  After all queries
a final progress callback fires with 100.  The network and any abnormal
per-round failure are modelled by a `BatchOracle`; the two callbacks are
modelled by event lists accumulated in the state.  (The `onSearchResult`
callback and the fixed delays are display-only/timing-only and are not
modelled.) -/

/-- Oracles for one batch run: the search endpoint per (query, engine), the
scoring endpoint per (query, engine, round, dimension), and whether the
per-round body throws abnormally (any error not already absorbed inside
`evaluateWithSearchResults`). -/
structure BatchOracle where
  search : String → SearchEngine → Option WebSearchResponse
  api : String → SearchEngine → Nat → Dimension → Option String
  roundThrows : String → SearchEngine → Nat → Bool

/-- Mutable state of the batch routine: appended results, the sequence of
progress callbacks fired so far, and the `completedTasks` counter. -/
structure BatchState where
  results : List EvaluationResult
  events : List EvaluationProgress
  completed : Nat

/-- JavaScript `Math.round` on a nonnegative value: floor of `x + 1/2`. -/
def jsRound (x : ℚ) : Int := ⌊x + 1/2⌋

/-- The progress record passed to `onProgress` before a round. -/
def progressOf (engineName : String) (r rounds completed totalTasks : Nat) :
    EvaluationProgress :=
  ⟨engineName, r, rounds, jsRound ((completed : ℚ) / (totalTasks : ℚ) * 100)⟩

/-- One iteration of the round loop: report progress, then either throw
(caught: only `completedTasks++`) or append the evaluation result and
`completedTasks++`. -/
def runRound (query : String) (engine : SearchEngine) (dimensions : List Dimension)
    (config : EvaluationConfig) (resp : WebSearchResponse) (o : BatchOracle)
    (totalTasks rounds : Nat) (r : Nat) (st : BatchState) : BatchState :=
  let st1 : BatchState :=
    { st with events := st.events ++ [progressOf engine.name r rounds st.completed totalTasks] }
  if o.roundThrows query engine r then
    { st1 with completed := st1.completed + 1 }
  else
    { st1 with
        results := st1.results ++
          [evaluateWithSearchResults query engine dimensions config r resp
            (o.api query engine r)]
        completed := st1.completed + 1 }

/-- The `for (let round = 1; round <= rounds; round++)` loop over a list of
round numbers. -/
def runRounds (query : String) (engine : SearchEngine) (dimensions : List Dimension)
    (config : EvaluationConfig) (resp : WebSearchResponse) (o : BatchOracle)
    (totalTasks rounds : Nat) : List Nat → BatchState → BatchState
  | [], st => st
  | r :: rs, st =>
    runRounds query engine dimensions config resp o totalTasks rounds rs
      (runRound query engine dimensions config resp o totalTasks rounds r st)

/-- The loop over the settled search results (engine order preserved by
`Promise.all`); an engine whose search failed is skipped. -/
def runEngines (query : String) (dimensions : List Dimension) (config : EvaluationConfig)
    (o : BatchOracle) (totalTasks rounds : Nat) :
    List (SearchEngine × Option WebSearchResponse) → BatchState → BatchState
  | [], st => st
  | (_, none) :: rest, st =>
    runEngines query dimensions config o totalTasks rounds rest st
  | (e, some resp) :: rest, st =>
    runEngines query dimensions config o totalTasks rounds rest
      (runRounds query e dimensions config resp o totalTasks rounds
        (List.range' 1 rounds) st)

/-- The outer loop over queries. -/
def runQueries (searchEngines : List SearchEngine) (dimensions : List Dimension)
    (config : EvaluationConfig) (o : BatchOracle) (totalTasks rounds : Nat) :
    List String → BatchState → BatchState
  | [], st => st
  | q :: qs, st =>
    runQueries searchEngines dimensions config o totalTasks rounds qs
      (runEngines q dimensions config o totalTasks rounds
        (searchEngines.map fun e => (e, o.search q e)) st)

/-- Function `runOptimizedBatchEvaluation`: run all queries, then fire the final
"完成" progress callback with 100. -/
def runOptimizedBatchEvaluation (queries : List String)
    (searchEngines : List SearchEngine) (dimensions : List Dimension)
    (config : EvaluationConfig) (rounds : Nat) (o : BatchOracle) : BatchState :=
  let totalTasks := queries.length * searchEngines.length * rounds
  let st := runQueries searchEngines dimensions config o totalTasks rounds queries ⟨[], [], 0⟩
  { st with events := st.events ++ [⟨"完成", rounds, rounds, 100⟩] }

/-- C1: with 2 engines, 1 query, 2 rounds (and one enabled dimension, no
abnormal round failure), a failed search for engine A and a successful one
for engine B yield exactly the two round results for B, in round order, and
none for A. -/
theorem batch_skips_failed_engine (q : String) (A B : SearchEngine)
    (dimensions : List Dimension) (config : EvaluationConfig)
    (resp : WebSearchResponse) (o : BatchOracle)
    (hA : o.search q A = none) (hB : o.search q B = some resp)
    (hthrow : ∀ e r, o.roundThrows q e r = false)
    (_hdim : (dimensions.filter fun d => d.enabled).length = 1) :
    (runOptimizedBatchEvaluation [q] [A, B] dimensions config 2 o).results =
      [evaluateWithSearchResults q B dimensions config 1 resp (o.api q B 1),
       evaluateWithSearchResults q B dimensions config 2 resp (o.api q B 2)] ∧
    (runOptimizedBatchEvaluation [q] [A, B] dimensions config 2 o).results.length = 2 ∧
    (∀ res ∈ (runOptimizedBatchEvaluation [q] [A, B] dimensions config 2 o).results,
      res.engineId = B.id ∧ res.engineName = B.name ∧ res.query = q) ∧
    ((runOptimizedBatchEvaluation [q] [A, B] dimensions config 2 o).results.map
      fun res => res.round) = [1, 2] ∧
    (A.id ≠ B.id →
      ∀ res ∈ (runOptimizedBatchEvaluation [q] [A, B] dimensions config 2 o).results,
        res.engineId ≠ A.id) := by
  have hres : (runOptimizedBatchEvaluation [q] [A, B] dimensions config 2 o).results =
      [evaluateWithSearchResults q B dimensions config 1 resp (o.api q B 1),
       evaluateWithSearchResults q B dimensions config 2 resp (o.api q B 2)] := by
    simp [runOptimizedBatchEvaluation, runQueries, runEngines, runRounds, runRound,
      List.range', hA, hB, hthrow]
  refine ⟨hres, by rw [hres]; rfl, ?_, ?_, ?_⟩
  · intro res hmem
    rw [hres] at hmem
    simp only [List.mem_cons, List.not_mem_nil, or_false] at hmem
    rcases hmem with h | h
    · subst h; exact ⟨rfl, rfl, rfl⟩
    · subst h; exact ⟨rfl, rfl, rfl⟩
  · rw [hres]; rfl
  · intro hAB res hmem
    rw [hres] at hmem
    simp only [List.mem_cons, List.not_mem_nil, or_false] at hmem
    rcases hmem with h | h
    · subst h
      intro hh
      exact hAB (by rw [← hh]; rfl)
    · subst h
      intro hh
      exact hAB (by rw [← hh]; rfl)

theorem runRound_events (query : String) (engine : SearchEngine)
    (dimensions : List Dimension) (config : EvaluationConfig) (resp : WebSearchResponse)
    (o : BatchOracle) (totalTasks rounds r : Nat) (st : BatchState) :
    (runRound query engine dimensions config resp o totalTasks rounds r st).events =
      st.events ++ [progressOf engine.name r rounds st.completed totalTasks] := by
  unfold runRound
  by_cases h : o.roundThrows query engine r <;> simp [h]

theorem runRound_completed (query : String) (engine : SearchEngine)
    (dimensions : List Dimension) (config : EvaluationConfig) (resp : WebSearchResponse)
    (o : BatchOracle) (totalTasks rounds r : Nat) (st : BatchState) :
    (runRound query engine dimensions config resp o totalTasks rounds r st).completed =
      st.completed + 1 := by
  unfold runRound
  by_cases h : o.roundThrows query engine r <;> simp [h]

theorem runRound_results (query : String) (engine : SearchEngine)
    (dimensions : List Dimension) (config : EvaluationConfig) (resp : WebSearchResponse)
    (o : BatchOracle) (totalTasks rounds r : Nat) (st : BatchState) :
    (runRound query engine dimensions config resp o totalTasks rounds r st).results =
      if o.roundThrows query engine r then st.results
      else st.results ++
        [evaluateWithSearchResults query engine dimensions config r resp
          (o.api query engine r)] := by
  unfold runRound
  by_cases h : o.roundThrows query engine r <;> simp [h]

theorem runRounds_completed (query : String) (engine : SearchEngine)
    (dimensions : List Dimension) (config : EvaluationConfig) (resp : WebSearchResponse)
    (o : BatchOracle) (totalTasks rounds : Nat) :
    ∀ (L : List Nat) (st : BatchState),
      (runRounds query engine dimensions config resp o totalTasks rounds L st).completed =
        st.completed + L.length := by
  intro L
  induction L with
  | nil => intro st; simp [runRounds]
  | cons r rs ih =>
    intro st
    rw [runRounds, ih, runRound_completed]
    simp
    omega

theorem runRounds_events (query : String) (engine : SearchEngine)
    (dimensions : List Dimension) (config : EvaluationConfig) (resp : WebSearchResponse)
    (o : BatchOracle) (totalTasks rounds : Nat) :
    ∀ (n s : Nat) (st : BatchState),
      (runRounds query engine dimensions config resp o totalTasks rounds
          (List.range' s n) st).events =
        st.events ++ (List.range n).map
          (fun j => progressOf engine.name (s + j) rounds (st.completed + j) totalTasks) := by
  intro n
  induction n with
  | zero => intro s st; simp [runRounds]
  | succ n' ih =>
    intro s st
    rw [List.range'_succ, runRounds, ih]
    rw [runRound_events, runRound_completed]
    rw [List.range_succ_eq_map]
    simp only [List.map_cons, List.map_map, List.append_assoc, List.singleton_append]
    congr 2
    apply List.map_congr_left
    intro a ha
    have h1 : s + 1 + a = s + (a + 1) := by omega
    have h2 : st.completed + 1 + a = st.completed + (a + 1) := by omega
    simp [Function.comp, h1, h2, Nat.succ_eq_add_one]

theorem runRounds_results_mem (query : String) (engine : SearchEngine)
    (dimensions : List Dimension) (config : EvaluationConfig) (resp : WebSearchResponse)
    (o : BatchOracle) (totalTasks rounds : Nat) :
    ∀ (L : List Nat) (st : BatchState) (res : EvaluationResult),
      res ∈ (runRounds query engine dimensions config resp o totalTasks rounds L st).results →
      res ∈ st.results ∨ ∃ r ∈ L, o.roundThrows query engine r = false ∧
        res = evaluateWithSearchResults query engine dimensions config r resp
          (o.api query engine r) := by
  intro L
  induction L with
  | nil => intro st res h; exact Or.inl h
  | cons r rs ih =>
    intro st res h
    rw [runRounds] at h
    rcases ih _ res h with hmem | ⟨r', hr', hth, heq⟩
    · rw [runRound_results] at hmem
      by_cases hthr : o.roundThrows query engine r
      · rw [if_pos hthr] at hmem
        exact Or.inl hmem
      · rw [if_neg hthr] at hmem
        rcases List.mem_append.mp hmem with hmem' | hone
        · exact Or.inl hmem'
        · refine Or.inr ⟨r, by simp, by simpa using hthr, by simpa using hone⟩
    · exact Or.inr ⟨r', List.mem_cons_of_mem _ hr', hth, heq⟩

theorem runEngines_completed_le (query : String) (dimensions : List Dimension)
    (config : EvaluationConfig) (o : BatchOracle) (totalTasks rounds : Nat) :
    ∀ (EL : List (SearchEngine × Option WebSearchResponse)) (st : BatchState),
      (runEngines query dimensions config o totalTasks rounds EL st).completed ≤
        st.completed + EL.length * rounds := by
  intro EL
  induction EL with
  | nil => intro st; simp [runEngines]
  | cons p rest ih =>
    intro st
    obtain ⟨e, sr⟩ := p
    cases sr with
    | none =>
      rw [runEngines]
      have h1 := ih st
      have h2 : rest.length * rounds ≤ (rest.length + 1) * rounds :=
        Nat.mul_le_mul_right rounds (Nat.le_succ _)
      simp only [List.length_cons]
      omega
    | some resp =>
      rw [runEngines]
      have h1 := ih (runRounds query e dimensions config resp o totalTasks rounds
        (List.range' 1 rounds) st)
      rw [runRounds_completed] at h1
      simp only [List.length_range'] at h1
      simp only [List.length_cons]
      have h2 : (rest.length + 1) * rounds = rest.length * rounds + rounds :=
        Nat.succ_mul _ _
      omega

theorem runEngines_events_mem (query : String) (dimensions : List Dimension)
    (config : EvaluationConfig) (o : BatchOracle) (totalTasks rounds : Nat) :
    ∀ (EL : List (SearchEngine × Option WebSearchResponse)) (st : BatchState)
      (ev : EvaluationProgress),
      ev ∈ (runEngines query dimensions config o totalTasks rounds EL st).events →
      ev ∈ st.events ∨ ∃ k, k < st.completed + EL.length * rounds ∧
        ev.progress = jsRound ((k : ℚ) / (totalTasks : ℚ) * 100) := by
  intro EL
  induction EL with
  | nil => intro st ev h; exact Or.inl h
  | cons p rest ih =>
    intro st ev h
    obtain ⟨e, sr⟩ := p
    cases sr with
    | none =>
      rw [runEngines] at h
      rcases ih st ev h with hmem | ⟨k, hk, hp⟩
      · exact Or.inl hmem
      · refine Or.inr ⟨k, ?_, hp⟩
        have : rest.length * rounds ≤ (rest.length + 1) * rounds :=
          Nat.mul_le_mul_right rounds (Nat.le_succ _)
        simp only [List.length_cons]
        omega
    | some resp =>
      rw [runEngines] at h
      rcases ih _ ev h with hmem | ⟨k, hk, hp⟩
      · rw [runRounds_events] at hmem
        rcases List.mem_append.mp hmem with hold | hnew
        · exact Or.inl hold
        · obtain ⟨j, hj, hev⟩ := List.mem_map.mp hnew
          rw [List.mem_range] at hj
          refine Or.inr ⟨st.completed + j, ?_, ?_⟩
          · simp only [List.length_cons]
            have h2 : (rest.length + 1) * rounds = rest.length * rounds + rounds :=
              Nat.succ_mul _ _
            omega
          · rw [← hev]
            rfl
      · rw [runRounds_completed] at hk
        simp only [List.length_range'] at hk
        refine Or.inr ⟨k, ?_, hp⟩
        simp only [List.length_cons]
        have h2 : (rest.length + 1) * rounds = rest.length * rounds + rounds :=
          Nat.succ_mul _ _
        omega

theorem runEngines_results_mem (query : String) (dimensions : List Dimension)
    (config : EvaluationConfig) (o : BatchOracle) (totalTasks rounds : Nat) :
    ∀ (EL : List (SearchEngine × Option WebSearchResponse)) (st : BatchState)
      (res : EvaluationResult),
      res ∈ (runEngines query dimensions config o totalTasks rounds EL st).results →
      res ∈ st.results ∨ ∃ e resp, (e, some resp) ∈ EL ∧ ∃ r ∈ List.range' 1 rounds,
        o.roundThrows query e r = false ∧
        res = evaluateWithSearchResults query e dimensions config r resp
          (o.api query e r) := by
  intro EL
  induction EL with
  | nil => intro st res h; exact Or.inl h
  | cons p rest ih =>
    intro st res h
    obtain ⟨e, sr⟩ := p
    cases sr with
    | none =>
      rw [runEngines] at h
      rcases ih st res h with hmem | ⟨e', resp', hmem', hrest⟩
      · exact Or.inl hmem
      · exact Or.inr ⟨e', resp', List.mem_cons_of_mem _ hmem', hrest⟩
    | some resp =>
      rw [runEngines] at h
      rcases ih _ res h with hmem | ⟨e', resp', hmem', hrest⟩
      · rcases runRounds_results_mem query e dimensions config resp o totalTasks rounds
            (List.range' 1 rounds) st res hmem with hold | ⟨r, hr, hth, heq⟩
        · exact Or.inl hold
        · exact Or.inr ⟨e, resp, by simp, r, hr, hth, heq⟩
      · exact Or.inr ⟨e', resp', List.mem_cons_of_mem _ hmem', hrest⟩

theorem runQueries_completed_le (searchEngines : List SearchEngine)
    (dimensions : List Dimension) (config : EvaluationConfig) (o : BatchOracle)
    (totalTasks rounds : Nat) :
    ∀ (QL : List String) (st : BatchState),
      (runQueries searchEngines dimensions config o totalTasks rounds QL st).completed ≤
        st.completed + QL.length * (searchEngines.length * rounds) := by
  intro QL
  induction QL with
  | nil => intro st; simp [runQueries]
  | cons q qs ih =>
    intro st
    rw [runQueries]
    have h1 := ih (runEngines q dimensions config o totalTasks rounds
      (searchEngines.map fun e => (e, o.search q e)) st)
    have h2 := runEngines_completed_le q dimensions config o totalTasks rounds
      (searchEngines.map fun e => (e, o.search q e)) st
    simp only [List.length_map] at h2
    simp only [List.length_cons]
    have h3 : (qs.length + 1) * (searchEngines.length * rounds) =
        qs.length * (searchEngines.length * rounds) + searchEngines.length * rounds :=
      Nat.succ_mul _ _
    omega

theorem runQueries_events_mem (searchEngines : List SearchEngine)
    (dimensions : List Dimension) (config : EvaluationConfig) (o : BatchOracle)
    (totalTasks rounds : Nat) :
    ∀ (QL : List String) (st : BatchState) (ev : EvaluationProgress),
      ev ∈ (runQueries searchEngines dimensions config o totalTasks rounds QL st).events →
      ev ∈ st.events ∨ ∃ k, k < st.completed + QL.length * (searchEngines.length * rounds) ∧
        ev.progress = jsRound ((k : ℚ) / (totalTasks : ℚ) * 100) := by
  intro QL
  induction QL with
  | nil => intro st ev h; exact Or.inl h
  | cons q qs ih =>
    intro st ev h
    rw [runQueries] at h
    have h3 : (qs.length + 1) * (searchEngines.length * rounds) =
        qs.length * (searchEngines.length * rounds) + searchEngines.length * rounds :=
      Nat.succ_mul _ _
    rcases ih _ ev h with hmem | ⟨k, hk, hp⟩
    · rcases runEngines_events_mem q dimensions config o totalTasks rounds
          (searchEngines.map fun e => (e, o.search q e)) st ev hmem with hold | ⟨k, hk, hp⟩
      · exact Or.inl hold
      · refine Or.inr ⟨k, ?_, hp⟩
        simp only [List.length_map] at hk
        simp only [List.length_cons]
        omega
    · refine Or.inr ⟨k, ?_, hp⟩
      have h2 := runEngines_completed_le q dimensions config o totalTasks rounds
        (searchEngines.map fun e => (e, o.search q e)) st
      simp only [List.length_map] at h2
      simp only [List.length_cons]
      omega

theorem runQueries_results_mem (searchEngines : List SearchEngine)
    (dimensions : List Dimension) (config : EvaluationConfig) (o : BatchOracle)
    (totalTasks rounds : Nat) :
    ∀ (QL : List String) (st : BatchState) (res : EvaluationResult),
      res ∈ (runQueries searchEngines dimensions config o totalTasks rounds QL st).results →
      res ∈ st.results ∨ ∃ q ∈ QL, ∃ e ∈ searchEngines, ∃ resp,
        o.search q e = some resp ∧ ∃ r ∈ List.range' 1 rounds,
        o.roundThrows q e r = false ∧
        res = evaluateWithSearchResults q e dimensions config r resp (o.api q e r) := by
  intro QL
  induction QL with
  | nil => intro st res h; exact Or.inl h
  | cons q qs ih =>
    intro st res h
    rw [runQueries] at h
    rcases ih _ res h with hmem | ⟨q', hq', rest⟩
    · rcases runEngines_results_mem q dimensions config o totalTasks rounds
          (searchEngines.map fun e => (e, o.search q e)) st res hmem with
        hold | ⟨e, resp, hpair, r, hr, hth, heq⟩
      · exact Or.inl hold
      · obtain ⟨e', he', hpe⟩ := List.mem_map.mp hpair
        obtain ⟨he1, he2⟩ := Prod.mk.injEq .. ▸ hpe
        refine Or.inr ⟨q, by simp, e, ?_, resp, ?_, r, hr, ?_, ?_⟩
        · rw [← he1]; exact he'
        · rw [← he1]; exact he2.symm ▸ rfl
        · exact hth
        · exact heq
    · exact Or.inr ⟨q', List.mem_cons_of_mem _ hq', rest⟩

theorem runRounds_events_progress (query : String) (engine : SearchEngine)
    (dimensions : List Dimension) (config : EvaluationConfig) (resp : WebSearchResponse)
    (o : BatchOracle) (totalTasks rounds : Nat) (n s : Nat) (st : BatchState) :
    ((runRounds query engine dimensions config resp o totalTasks rounds
        (List.range' s n) st).events).map (fun ev => ev.progress) =
      (st.events.map fun ev => ev.progress) ++
        (List.range' st.completed n).map
          (fun k : Nat => jsRound ((k : ℚ) / (totalTasks : ℚ) * 100)) := by
  rw [runRounds_events, List.map_append, List.map_map,
    List.range'_eq_map_range st.completed n, List.map_map]
  congr 1

theorem runEngines_events_progress (query : String) (dimensions : List Dimension)
    (config : EvaluationConfig) (o : BatchOracle) (totalTasks rounds : Nat) :
    ∀ (EL : List (SearchEngine × Option WebSearchResponse)) (st : BatchState),
      ∃ A, A ≤ EL.length * rounds ∧
        (runEngines query dimensions config o totalTasks rounds EL st).completed =
          st.completed + A ∧
        ((runEngines query dimensions config o totalTasks rounds EL st).events).map
            (fun ev => ev.progress) =
          (st.events.map fun ev => ev.progress) ++
            (List.range' st.completed A).map
              (fun k : Nat => jsRound ((k : ℚ) / (totalTasks : ℚ) * 100)) := by
  intro EL
  induction EL with
  | nil => intro st; exact ⟨0, by simp, by simp [runEngines], by simp [runEngines]⟩
  | cons p rest ih =>
    intro st
    obtain ⟨e, sr⟩ := p
    cases sr with
    | none =>
      obtain ⟨A, hA, hc, he⟩ := ih st
      refine ⟨A, ?_, ?_, ?_⟩
      · have h1 : rest.length * rounds ≤ (rest.length + 1) * rounds :=
          Nat.mul_le_mul_right rounds (Nat.le_succ _)
        simp only [List.length_cons]
        omega
      · rw [runEngines]; exact hc
      · rw [runEngines]; exact he
    | some resp =>
      obtain ⟨A, hA, hc, he⟩ := ih (runRounds query e dimensions config resp o totalTasks
        rounds (List.range' 1 rounds) st)
      have hcR : (runRounds query e dimensions config resp o totalTasks rounds
          (List.range' 1 rounds) st).completed = st.completed + rounds := by
        rw [runRounds_completed]
        simp
      have heR := runRounds_events_progress query e dimensions config resp o totalTasks
        rounds rounds 1 st
      refine ⟨rounds + A, ?_, ?_, ?_⟩
      · have h1 : (rest.length + 1) * rounds = rest.length * rounds + rounds :=
          Nat.succ_mul _ _
        simp only [List.length_cons]
        omega
      · rw [runEngines, hc, hcR]
        omega
      · rw [runEngines, he, heR, hcR]
        rw [List.append_assoc, ← List.map_append]
        rw [List.range'_append_1 st.completed rounds A]
        rw [Nat.add_comm A rounds]
    
theorem runQueries_events_progress (searchEngines : List SearchEngine)
    (dimensions : List Dimension) (config : EvaluationConfig) (o : BatchOracle)
    (totalTasks rounds : Nat) :
    ∀ (QL : List String) (st : BatchState),
      ∃ A, A ≤ QL.length * (searchEngines.length * rounds) ∧
        (runQueries searchEngines dimensions config o totalTasks rounds QL st).completed =
          st.completed + A ∧
        ((runQueries searchEngines dimensions config o totalTasks rounds QL st).events).map
            (fun ev => ev.progress) =
          (st.events.map fun ev => ev.progress) ++
            (List.range' st.completed A).map
              (fun k : Nat => jsRound ((k : ℚ) / (totalTasks : ℚ) * 100)) := by
  intro QL
  induction QL with
  | nil => intro st; exact ⟨0, by simp, by simp [runQueries], by simp [runQueries]⟩
  | cons q qs ih =>
    intro st
    obtain ⟨B, hB, hcB, heB⟩ := runEngines_events_progress q dimensions config o totalTasks
      rounds (searchEngines.map fun e => (e, o.search q e)) st
    simp only [List.length_map] at hB
    obtain ⟨A, hA, hc, he⟩ := ih (runEngines q dimensions config o totalTasks rounds
      (searchEngines.map fun e => (e, o.search q e)) st)
    refine ⟨B + A, ?_, ?_, ?_⟩
    · have h1 : (qs.length + 1) * (searchEngines.length * rounds) =
          qs.length * (searchEngines.length * rounds) + searchEngines.length * rounds :=
        Nat.succ_mul _ _
      simp only [List.length_cons]
      omega
    · rw [runQueries, hc, hcB]
      omega
    · rw [runQueries, he, heB, hcB]
      rw [List.append_assoc, ← List.map_append]
      rw [List.range'_append_1 st.completed B A]
      rw [Nat.add_comm A B]

theorem half_add_div (k n : Nat) (hn : 0 < n) :
    (k : ℚ) / (n : ℚ) * 100 + 1/2 = ((200 * k + n : Nat) : ℚ) / ((2 * n : Nat) : ℚ) := by
  have hn' : (n : ℚ) ≠ 0 := Nat.cast_ne_zero.mpr hn.ne'
  push_cast
  field_simp
  ring

theorem jsRound_div_eq (k n : Nat) (hn : 0 < n) :
    jsRound ((k : ℚ) / (n : ℚ) * 100) = (((200 * k + n) / (2 * n) : Nat) : Int) := by
  unfold jsRound
  rw [half_add_div k n hn, Rat.floor_natCast_div_natCast, Int.natCast_div]

theorem jsRound_lt_100 (k T : Nat) (hk : k < T) (hT : T < 200) :
    jsRound ((k : ℚ) / (T : ℚ) * 100) < 100 := by
  have hT0 : 0 < T := lt_of_le_of_lt (Nat.zero_le k) hk
  rw [jsRound_div_eq k T hT0]
  have h : (200 * k + T) / (2 * T) < 100 := by
    apply Nat.div_lt_of_lt_mul
    omega
  exact_mod_cast h

/-- C2 (amended): the final progress callback always fires with 100; the
per-round reports, in firing order, carry exactly the values
`Math.round(k / total * 100)` for `k = 0, 1, ..., A - 1`, where `A ≤ total`
is the number of attempted engine-round combinations — the `k`-th report's
`k` is the actual value of `completedTasks` when it fires, since every
attempted round emits one report and then increments the counter exactly
once (also on failure) while skipped engines do neither; and when the total
planned combinations are fewer than 200, the value 100 occurs exactly once
among all reports, carried by the final invocation.  (The counterexample
below shows that with 200 or more planned combinations the claim's
"exactly once" fails.) -/
theorem batch_progress_spec (queries : List String) (searchEngines : List SearchEngine)
    (dimensions : List Dimension) (config : EvaluationConfig) (rounds : Nat)
    (o : BatchOracle) :
    (runOptimizedBatchEvaluation queries searchEngines dimensions config rounds o).events ≠
      [] ∧
    (runOptimizedBatchEvaluation queries searchEngines dimensions config rounds
        o).events.getLast? = some ⟨"完成", rounds, rounds, 100⟩ ∧
    (∃ A, A ≤ queries.length * searchEngines.length * rounds ∧
      ((runOptimizedBatchEvaluation queries searchEngines dimensions config rounds
          o).events.dropLast).map (fun ev => ev.progress) =
        (List.range A).map (fun k : Nat => jsRound ((k : ℚ) /
          ((queries.length * searchEngines.length * rounds : Nat) : ℚ) * 100))) ∧
    (queries.length * searchEngines.length * rounds < 200 →
      ((runOptimizedBatchEvaluation queries searchEngines dimensions config rounds
          o).events.filter fun ev => ev.progress == 100).length = 1) := by
  have hassoc : queries.length * (searchEngines.length * rounds) =
      queries.length * searchEngines.length * rounds := (Nat.mul_assoc _ _ _).symm
  have hdrop : ∀ ev ∈ (runQueries searchEngines dimensions config o
      (queries.length * searchEngines.length * rounds) rounds queries ⟨[], [], 0⟩).events,
      ∃ k, k < queries.length * searchEngines.length * rounds ∧
        ev.progress = jsRound ((k : ℚ) /
          ((queries.length * searchEngines.length * rounds : Nat) : ℚ) * 100) := by
    intro ev hev
    rcases runQueries_events_mem searchEngines dimensions config o
        (queries.length * searchEngines.length * rounds) rounds queries ⟨[], [], 0⟩ ev hev with
      hnil | ⟨k, hk, hp⟩
    · exact absurd hnil (List.not_mem_nil ev)
    · refine ⟨k, ?_, hp⟩
      rw [← hassoc]
      simpa using hk
  refine ⟨?_, ?_, ?_, ?_⟩
  · unfold runOptimizedBatchEvaluation
    simp
  · unfold runOptimizedBatchEvaluation
    simp only [List.getLast?_concat]
  · obtain ⟨A, hA, _, he⟩ := runQueries_events_progress searchEngines dimensions config o
      (queries.length * searchEngines.length * rounds) rounds queries ⟨[], [], 0⟩
    refine ⟨A, hassoc ▸ hA, ?_⟩
    unfold runOptimizedBatchEvaluation
    simp only [List.dropLast_concat]
    rw [he]
    simp [List.range_eq_range']
  · intro hT
    unfold runOptimizedBatchEvaluation
    simp only [List.filter_append]
    have hnil : ((runQueries searchEngines dimensions config o
        (queries.length * searchEngines.length * rounds) rounds queries
        ⟨[], [], 0⟩).events.filter fun ev => ev.progress == 100) = [] := by
      rw [List.filter_eq_nil_iff]
      intro ev hev
      obtain ⟨k, hk, hp⟩ := hdrop ev hev
      have hlt : ev.progress < 100 := hp ▸ jsRound_lt_100 k _ hk hT
      simp only [beq_iff_eq]
      omega
    rw [hnil]
    rfl

/-- An oracle and engine for the C2 witness and counterexample runs: search
always succeeds with an empty result list, scoring calls throw, rounds never
throw abnormally. -/
def cexOracle : BatchOracle :=
  ⟨fun _ _ => some ⟨[], 0, ""⟩, fun _ _ _ _ => none, fun _ _ _ => false⟩

/-- Engine used in the C2 counterexample run. -/
def cexEngine : SearchEngine := ⟨1, "e", "E"⟩

/-- Configuration used in the concrete batch runs. -/
def cexConfig : EvaluationConfig := ⟨"", "", "", "", ScoringSystem.binary⟩

/-- C2 witness: a run with 0 planned combinations fires exactly one 100%
callback. -/
theorem batch_progress_spec_witness :
    ((runOptimizedBatchEvaluation ["q"] [] [] cexConfig 0 cexOracle).events.filter
      fun ev => ev.progress == 100).length = 1 :=
  (batch_progress_spec ["q"] [] [] cexConfig 0 cexOracle).2.2.2 (by decide)

theorem natCast_beq_hundred (a : Nat) : ((a : Int) == (100 : Int)) = (a == 100) := by
  by_cases h : a = 100
  · simp [h]
  · have h' : (a : Int) ≠ 100 := by exact_mod_cast h
    simp [h, h']

/-- C2 counterexample: with 1 query, 1 engine and 200 rounds (200 planned
combinations, all succeeding), the next-to-last per-round report is
`Math.round(199/200*100) = Math.round(99.5) = 100`, so the value 100 is
passed to the progress callback twice — the claim's "exactly once ...
regardless" fails. -/
theorem batch_progress_100_twice :
    ((runOptimizedBatchEvaluation ["q"] [cexEngine] [] cexConfig 200 cexOracle).events.filter
      fun ev => ev.progress == 100).length = 2 := by
  have hev : (runOptimizedBatchEvaluation ["q"] [cexEngine] [] cexConfig 200
      cexOracle).events =
      ((List.range 200).map fun j =>
        progressOf "E" (1 + j) 200 (0 + j) 200) ++ [⟨"完成", 200, 200, 100⟩] := by
    unfold runOptimizedBatchEvaluation
    simp only [List.length_singleton, List.length_cons, List.length_nil]
    rw [show (1 * 1 * 200 : Nat) = 200 from rfl]
    rw [runQueries, runQueries]
    rw [show [cexEngine].map (fun e => (e, cexOracle.search "q" e)) =
      [(cexEngine, some ⟨[], 0, ""⟩)] from rfl]
    rw [runEngines, runEngines]
    rw [runRounds_events]
    rfl
  rw [hev, List.filter_append, List.filter_map, List.length_append, List.length_map]
  have hcongr : List.filter ((fun ev => ev.progress == 100) ∘ fun j =>
      progressOf "E" (1 + j) 200 (0 + j) 200) (List.range 200) =
      List.filter (fun j => (200 * (0 + j) + 200) / (2 * 200) == 100) (List.range 200) := by
    apply List.filter_congr
    intro j hj
    show ((progressOf "E" (1 + j) 200 (0 + j) 200).progress == 100) = _
    have hp : (progressOf "E" (1 + j) 200 (0 + j) 200).progress =
        jsRound (((0 + j : Nat) : ℚ) / ((200 : Nat) : ℚ) * 100) := rfl
    rw [hp, jsRound_div_eq (0 + j) 200 (by norm_num), natCast_beq_hundred]
  rw [hcongr]
  rfl

/-- Oracle for the C1 witness run: the search call fails for the engine with
id 1 and succeeds for every other engine; scoring replies grade 3. -/
def c1Oracle : BatchOracle :=
  ⟨fun _ e => if e.id = 1 then none else some ⟨[⟨"t", "u", "s", 1⟩], 1, "r"⟩,
   fun _ _ _ _ => some "最终得分：3", fun _ _ _ => false⟩

/-- C1 witness: engine A (id 1) fails its search, engine B succeeds; the run
yields exactly the two round results for B. -/
theorem batch_skips_failed_engine_witness :
    (runOptimizedBatchEvaluation ["q"] [⟨1, "a", "A"⟩, ⟨2, "b", "B"⟩]
        [⟨1, "d", 1, true, none⟩] ⟨"", "", "", "", ScoringSystem.binary⟩ 2
        c1Oracle).results.length = 2 ∧
    ((runOptimizedBatchEvaluation ["q"] [⟨1, "a", "A"⟩, ⟨2, "b", "B"⟩]
        [⟨1, "d", 1, true, none⟩] ⟨"", "", "", "", ScoringSystem.binary⟩ 2
        c1Oracle).results.map fun res => res.round) = [1, 2] :=
  have h := batch_skips_failed_engine "q" ⟨1, "a", "A"⟩ ⟨2, "b", "B"⟩
    [⟨1, "d", 1, true, none⟩] ⟨"", "", "", "", ScoringSystem.binary⟩
    ⟨[⟨"t", "u", "s", 1⟩], 1, "r"⟩ c1Oracle rfl rfl (fun _ _ => rfl) rfl
  ⟨h.2.1, h.2.2.2.1⟩

/-- C10: given distinct dimension names, the scores map of the result
produced by `evaluateWithSearchResults` has the names of exactly the enabled
dimensions as its keys (in order) — a dimension whose call threw is present
with score 0, a disabled dimension's name never appears — and the
`weightedScore` field equals `calculateWeightedScore` applied to that scores
map and the full dimension list.  Every result appended by the batch routine
is such an `evaluateWithSearchResults` output (second part). -/
theorem evaluationResult_invariant :
    (∀ (query : String) (engine : SearchEngine) (dimensions : List Dimension)
        (config : EvaluationConfig) (round : Nat) (searchResponse : WebSearchResponse)
        (api : Dimension → Option String),
      ((dimensions.map fun d => d.name).Nodup) →
      ((evaluateWithSearchResults query engine dimensions config round searchResponse
          api).scores.map Prod.fst =
        (dimensions.filter fun d => d.enabled).map fun d => d.name) ∧
      (∀ d ∈ dimensions, d.enabled = true → api d = none →
        lookupScore (evaluateWithSearchResults query engine dimensions config round
          searchResponse api).scores d.name = some 0) ∧
      (∀ d ∈ dimensions, d.enabled = false →
        lookupScore (evaluateWithSearchResults query engine dimensions config round
          searchResponse api).scores d.name = none) ∧
      (evaluateWithSearchResults query engine dimensions config round searchResponse
          api).weightedScore =
        calculateWeightedScore (evaluateWithSearchResults query engine dimensions
          config round searchResponse api).scores dimensions) ∧
    (∀ (queries : List String) (searchEngines : List SearchEngine)
        (dimensions : List Dimension) (config : EvaluationConfig) (rounds : Nat)
        (o : BatchOracle) (res : EvaluationResult),
      res ∈ (runOptimizedBatchEvaluation queries searchEngines dimensions config rounds
          o).results →
      ∃ q ∈ queries, ∃ e ∈ searchEngines, ∃ resp r, o.search q e = some resp ∧
        res = evaluateWithSearchResults q e dimensions config r resp (o.api q e r)) := by
  constructor
  · intro query engine dimensions config round searchResponse api hnodup
    have hnodupEn : (((dimensions.filter fun d => d.enabled).map fun d => d.name).Nodup) :=
      hnodup.sublist ((List.filter_sublist _).map _)
    have hscores := evaluateWithSearchResults_scores query engine dimensions config round
      searchResponse api hnodupEn
    refine ⟨?_, ?_, ?_, rfl⟩
    · rw [hscores, List.map_map]
      apply List.map_congr_left
      intro d hd
      rfl
    · intro d hd hen hthrow
      have hdf : d ∈ dimensions.filter fun d => d.enabled :=
        List.mem_filter.mpr ⟨hd, by simp [hen]⟩
      rw [hscores, lookupScore_map_of_mem _ _ d hdf hnodupEn,
        evalDimension_of_throw query searchResponse.results config api d hthrow]
    · intro d hd hdis
      have hnot : d.name ∉ (dimensions.filter fun d => d.enabled).map fun d => d.name := by
        intro hmem
        obtain ⟨e, he, hename⟩ := List.mem_map.mp hmem
        have heDims : e ∈ dimensions := List.mem_of_mem_filter he
        have heEn : e.enabled = true := by simpa using List.of_mem_filter he
        have : e = d := List.inj_on_of_nodup_map hnodup heDims hd hename
        rw [this] at heEn
        rw [heEn] at hdis
        exact Bool.noConfusion hdis
      rw [hscores]
      exact lookupScore_map_of_not_mem _ _ _ hnot
  · intro queries searchEngines dimensions config rounds o res hres
    have hres' : res ∈ (runQueries searchEngines dimensions config o
        (queries.length * searchEngines.length * rounds) rounds queries
        ⟨[], [], 0⟩).results := hres
    rcases runQueries_results_mem searchEngines dimensions config o
        (queries.length * searchEngines.length * rounds) rounds queries
        ⟨[], [], 0⟩ res hres' with hnil | ⟨q, hq, e, he, resp, hsearch, r, hr, hth, heq⟩
    · exact absurd hnil (List.not_mem_nil res)
    · exact ⟨q, hq, e, he, resp, r, hsearch, heq⟩

/-- C10 witness: one enabled dimension "a" whose call throws and one
disabled dimension "b"; the scores map has exactly the key "a", with value
0, and the weighted score recomputes from the scores map. -/
theorem evaluationResult_invariant_witness :
    ((evaluateWithSearchResults "q" ⟨1, "e", "E"⟩
        [⟨1, "a", 1, true, none⟩, ⟨2, "b", 1, false, none⟩]
        ⟨"", "", "", "", ScoringSystem.binary⟩ 1 ⟨[], 0, ""⟩
        fun _ => none).scores.map Prod.fst = ["a"]) ∧
    lookupScore (evaluateWithSearchResults "q" ⟨1, "e", "E"⟩
        [⟨1, "a", 1, true, none⟩, ⟨2, "b", 1, false, none⟩]
        ⟨"", "", "", "", ScoringSystem.binary⟩ 1 ⟨[], 0, ""⟩
        fun _ => none).scores "a" = some 0 ∧
    lookupScore (evaluateWithSearchResults "q" ⟨1, "e", "E"⟩
        [⟨1, "a", 1, true, none⟩, ⟨2, "b", 1, false, none⟩]
        ⟨"", "", "", "", ScoringSystem.binary⟩ 1 ⟨[], 0, ""⟩
        fun _ => none).scores "b" = none := by
  have h := evaluationResult_invariant.1 "q" ⟨1, "e", "E"⟩
    [⟨1, "a", 1, true, none⟩, ⟨2, "b", 1, false, none⟩]
    ⟨"", "", "", "", ScoringSystem.binary⟩ 1 ⟨[], 0, ""⟩ (fun _ => none) (by decide)
  exact ⟨h.1, h.2.1 ⟨1, "a", 1, true, none⟩ (by decide) rfl rfl,
    h.2.2.1 ⟨2, "b", 1, false, none⟩ (by decide) rfl⟩

/-- C3 witness (for the amended quotient form, at nonnegative weights). -/
theorem calculateWeightedScore_spec_witness :
    calculateWeightedScore [("a", (3 : ℚ))] [⟨1, "a", 1, true, none⟩] =
      ((presentDims [("a", (3 : ℚ))] [⟨1, "a", 1, true, none⟩]).map
        fun d => scoreOf [("a", (3 : ℚ))] d * d.weight).sum /
      ((presentDims [("a", (3 : ℚ))] [⟨1, "a", 1, true, none⟩]).map
        fun d => d.weight).sum :=
  calculateWeightedScore_spec.1 [("a", (3 : ℚ))] [⟨1, "a", 1, true, none⟩] (by decide)
